import Mathlib

/-!
# Verification of the Finout top-costs CLI aggregation pipeline

A shallow embedding of `src/finout_top_costs.py` and proofs about it.

Modelling conventions:
* Python floats are modelled as exact rationals (`ℚ`).  `round(x, d)` is modelled as
  round-half-to-even on rationals (Python's documented banker's rounding); no claim
  below depends on a tie case.
* Python strings are Lean `String`s; where character-level processing matters
  (URL construction), they are handled as `List Char` (a Python `str` is a
  sequence of code points).
* Fallible Python code (expressions that can raise) is modelled in `Except Unit`.
* `json.loads` applied to an element of the input list is modelled by recording the
  parse outcome in the element itself (`Item.pystr (some v)` / `Item.pystr none`),
  and `float(x)` for a non-numeric `x` by recording whether the conversion succeeds
  (`CostVal.num q` / `CostVal.bad`); the claims under study never depend on the
  textual details of those conversions, only on their success or failure.
-/

namespace Finout

/-- Round a rational to an integer, ties to even: Python's `round` on exact values. -/
def rndHalfEven (x : ℚ) : ℤ :=
  let f : ℤ := ⌊x⌋
  if x - f < 1/2 then f
  else if (1:ℚ)/2 < x - f then f + 1
  else if f % 2 = 0 then f else f + 1

/-- Python's `round(x, d)` for `d ≥ 0` digits, on exact rationals. -/
def pyRound (d : ℕ) (x : ℚ) : ℚ := (rndHalfEven (x * 10 ^ d) : ℚ) / 10 ^ d

/-- The value stored under the `"cost"` key of one `data` sub-entry, as seen by
`float(entry.get("cost", 0))`: either a value that `float` converts to the rational
`q`, or a value on which `float` raises (`TypeError` / `ValueError`). -/
inductive CostVal where
  | num (q : ℚ)
  | bad
deriving DecidableEq

/-- One element of a record's `data` list: a Python dict with an optional `"cost"`
key, or a non-dict value, on which `entry.get` raises `AttributeError`. -/
inductive PyEntry where
  | dict (cost : Option CostVal)
  | nondict
deriving DecidableEq

/-- The value stored under a record's `"data"` key: a list of sub-entries, or a
non-iterable value, on which the `sum(... for entry in ...)` generator raises. -/
inductive DataField where
  | list (entries : List PyEntry)
  | notIterable
deriving DecidableEq

/-- A record dict as the aggregator reads it: the `"name"` key (`none` when absent,
so that `item.get("name", "Unknown")` falls back) and the `"data"` key (`none` when
absent, so that `item.get("data", [])` falls back). -/
structure RecDict where
  name : Option String
  data : Option DataField
deriving DecidableEq

/-- A decoded JSON value, at the granularity the aggregator inspects it:
a dict (a candidate cost record) or anything else. -/
inductive JVal where
  | dict (r : RecDict)
  | nondict
deriving DecidableEq

/-- One element of a list passed to `summarize_top_costs`: either a non-`str` value,
or a Python `str`, which `json.loads` either decodes to `v` (`pystr (some v)`) or
rejects with `json.JSONDecodeError` (`pystr none`). -/
inductive Item where
  | native (v : JVal)
  | pystr (parsed : Option JVal)
deriving DecidableEq

/-- The `data` argument of `summarize_top_costs` (the cost fetcher can hand it a
JSON array, a JSON object, or any other decoded JSON value):
* `list items` — a Python list;
* `dict keys` — a Python dict (iterating it yields its keys, which are strings);
* `str s` — a Python str (iterating it yields 1-character strings);
* `int n` — a Python int, on which `len(data)` raises `TypeError`. -/
inductive PyData where
  | list (items : List Item)
  | dict (keys : List String)
  | str (s : List Char)
  | int (n : ℤ)
deriving DecidableEq

/-- Lines 65–76: the normalization loop.  String elements are replaced by their
`json.loads` result when it parses (elements that fail to parse are skipped with a
warning), and only elements that are dicts after this step are kept. -/
def normalize (items : List Item) : List RecDict :=
  items.filterMap fun it =>
    match it with
    | .native (.dict r) => some r
    | .native .nondict => none
    | .pystr (some (.dict r)) => some r
    | .pystr (some .nondict) => none
    | .pystr none => none

/-- `float(entry.get("cost", 0))`: a missing key defaults to `0`; a present value
either converts or raises. -/
def floatOfCost : Option CostVal → Except Unit ℚ
  | none => .ok 0
  | some (.num q) => .ok q
  | some .bad => .error ()

/-- `sum(float(entry.get("cost", 0)) for entry in daily_costs)`: raises at the first
non-dict entry or inconvertible cost, otherwise sums. -/
def sumCosts : List PyEntry → Except Unit ℚ
  | [] => .ok 0
  | .nondict :: _ => .error ()
  | .dict c :: rest =>
    match floatOfCost c with
    | .error e => .error e
    | .ok q =>
      match sumCosts rest with
      | .error e => .error e
      | .ok s => .ok (q + s)

/-- `item.get("data", [])`, followed by iterating it: a missing key defaults to the
empty list; a non-iterable value raises. -/
def getDataEntries : Option DataField → Except Unit (List PyEntry)
  | none => .ok []
  | some (.list es) => .ok es
  | some .notIterable => .error ()

/-- `cost_summary[k] += v` on the `defaultdict(float)`, modelled as an ordered
association list (Python dicts preserve insertion order). -/
def upsert (m : List (String × ℚ)) (k : String) (v : ℚ) : List (String × ℚ) :=
  match m with
  | [] => [(k, v)]
  | (k', v') :: rest => if k' = k then (k', v' + v) :: rest else (k', v') :: upsert rest k v

/-- Lines 85–94: one iteration of the aggregation loop over a parsed record. -/
def aggStep (include_total : Bool) (m : List (String × ℚ)) (r : RecDict) :
    Except Unit (List (String × ℚ)) :=
  if r.name = some "Total" then
    if include_total then
      match getDataEntries r.data with
      | .error e => .error e
      | .ok es =>
        match sumCosts es with
        | .error e => .error e
        | .ok s => .ok (upsert m "Total" s)
    else .ok m
  else
    match getDataEntries r.data with
    | .error e => .error e
    | .ok es =>
      match sumCosts es with
      | .error e => .error e
      | .ok s => .ok (upsert m (r.name.getD "Unknown") s)

/-- The aggregation loop (lines 84–94), record by record. -/
def aggregateRecs (include_total : Bool) (m : List (String × ℚ)) :
    List RecDict → Except Unit (List (String × ℚ))
  | [] => .ok m
  | r :: rs =>
    match aggStep include_total m r with
    | .error e => .error e
    | .ok m' => aggregateRecs include_total m' rs

/-- The list of records the aggregation loop actually processes, given the input
shape.  For a list, these are the normalized dict elements.  A dict input iterates
its keys and a str input its characters — none of which are dicts, so the
`isinstance(item, dict)` guard at line 86 skips them all.  For an int input,
`len(data)` at line 78 raises `TypeError` before the loop is reached. -/
def pyRecords : PyData → Except Unit (List RecDict)
  | .list items => .ok (normalize items)
  | .dict _ => .ok []
  | .str _ => .ok []
  | .int _ => .error ()

/-- The final contents of `cost_summary` (lines 64–94). -/
def aggregated (data : PyData) (include_total : Bool) :
    Except Unit (List (String × ℚ)) :=
  match pyRecords data with
  | .error e => .error e
  | .ok rs => aggregateRecs include_total [] rs

/-- An element of the ranked list (§3 `RankedEntry`). -/
structure RankedEntry where
  service : String
  amount_usd : ℚ
  percentage_of_total : ℚ
deriving DecidableEq

/-- The optional grand-total entry (§3 `TotalEntry`). -/
structure TotalEntry where
  service : String
  amount_usd : ℚ
deriving DecidableEq

/-- Stable insertion into a descending-sorted list: the new element goes after every
element of greater-or-equal cost. -/
def insertDesc (p : String × ℚ) : List (String × ℚ) → List (String × ℚ)
  | [] => [p]
  | q :: rest => if q.2 ≤ p.2 then p :: q :: rest else q :: insertDesc p rest

/-- Python's `sorted(pairs, key=lambda x: x[1], reverse=True)`: a stable sort,
descending in the cost component.  Stable insertion sort is extensionally the same
function (stability and sortedness determine the output uniquely). -/
def sortDesc : List (String × ℚ) → List (String × ℚ)
  | [] => []
  | p :: rest => insertDesc p (sortDesc rest)

/-- Python's `l[:n]` for an `int` `n` (a negative `n` counts from the end). -/
def pySlice {α : Type} (l : List α) (n : ℤ) : List α :=
  if 0 ≤ n then l.take n.toNat else l.take (l.length - (-n).toNat)

/-- Lines 64–119: `summarize_top_costs(data, include_total, top_n)`. -/
def summarize_top_costs (data : PyData) (include_total : Bool) (top_n : ℤ) :
    Except Unit (List RankedEntry × Option TotalEntry) :=
  match aggregated data include_total with
  | .error e => .error e
  | .ok cost_summary =>
    let total : ℚ := (cost_summary.map (·.2)).sum
    if total = 0 then .ok ([], none)
    else
      let top := pySlice (sortDesc (cost_summary.filter fun p => p.1 ≠ "Total")) top_n
      let total_entry : Option TotalEntry :=
        if include_total then
          match cost_summary.lookup "Total" with
          | some v => some ⟨"Total", pyRound 2 v⟩
          | none => none
        else none
      let results := top.map fun p =>
        ({ service := p.1, amount_usd := pyRound 2 p.2
           percentage_of_total := pyRound 1 (p.2 / total * 100) } : RankedEntry)
      .ok (results, total_entry)

/-- The record `{"name": "ComputeA", "data": [{"cost": 50}, {"cost": 30}]}`. -/
def recComputeA : Item :=
  .native (.dict ⟨some "ComputeA", some (.list [.dict (some (.num 50)), .dict (some (.num 30))])⟩)

/-- The record `{"name": "ComputeB", "data": [{"cost": 20}]}`. -/
def recComputeB : Item :=
  .native (.dict ⟨some "ComputeB", some (.list [.dict (some (.num 20))])⟩)

/-- The record `{"name": "Total", "data": [{"cost": 100}]}`. -/
def recTotalItem : Item :=
  .native (.dict ⟨some "Total", some (.list [.dict (some (.num 100))])⟩)

/-- The record `{"name": "A", "data": [{"cost": 60}]}`. -/
def recServiceA : Item :=
  .native (.dict ⟨some "A", some (.list [.dict (some (.num 60))])⟩)

/-- The record `{"name": "B", "data": [{"cost": 40}]}`. -/
def recServiceB : Item :=
  .native (.dict ⟨some "B", some (.list [.dict (some (.num 40))])⟩)

/-! ## Statement helpers for the aggregator -/

/-- The keys of the cost summary, in insertion order. -/
def keysOf (m : List (String × ℚ)) : List String := m.map (·.1)

/-- `sum(cost_summary.values())`. -/
def sumValues (m : List (String × ℚ)) : ℚ := (m.map (·.2)).sum

/-- The non-`"Total"` bindings of the cost summary. -/
def nonTotal (m : List (String × ℚ)) : List (String × ℚ) :=
  m.filter fun p => p.1 ≠ "Total"

/-- The effective service name of a parsed record (`item.get("name", "Unknown")`). -/
def effName (r : RecDict) : String := r.name.getD "Unknown"

/-- The effective names of all records the aggregation loop would process. -/
def effNames (data : PyData) : List String :=
  match data with
  | .list items => (normalize items).map effName
  | _ => []

/-- The number of distinct non-`"Total"` service names present in the input
(records with no `"name"` key count under their effective name `"Unknown"`). -/
def distinctNonTotalCount (data : PyData) : ℕ :=
  (((effNames data).filter fun a => a ≠ "Total").dedup).length

/-! ## Payload builder (lines 121–135) and pusher (lines 137–142) -/

/-- The fixed `metadata` sub-object of the payload. -/
structure Metadata where
  currency : String
  extracted_by : String
  report_type : String
deriving DecidableEq

/-- The payload envelope (§3).  `total = none` models the `"total"` key being absent.
The program only ever passes `None` or a two-key dict as `total_entry`, so Python's
truthiness test `if total_entry:` coincides with `Option.isSome` here. -/
structure Payload where
  action : String
  report_date : String
  source : String
  top_costs : List RankedEntry
  metadata : Metadata
  total : Option TotalEntry
deriving DecidableEq

/-- Lines 121–135: `build_payload(top_list, report_date, total_entry)`. -/
def build_payload (top_list : List RankedEntry) (report_date : String)
    (total_entry : Option TotalEntry) : Payload :=
  { action := "push_top_costs"
    report_date := report_date
    source := "Finout"
    top_costs := top_list
    metadata :=
      { currency := "USD"
        extracted_by := "greg.ohare@finout.io"
        report_type := "cli_summary" }
    total := total_entry }

/-- Lines 137–142: `push_to_api(payload, url)`.  The network is modelled by the
oracle `post` (what `requests.post(url, json=payload)` would return); the second
component of the result counts how many network calls were made. -/
def push_to_api (payload : Payload) (url : String)
    (post : String → Payload → ℤ × String) : (ℤ × String) × ℕ :=
  if payload.top_costs = [] then ((0, "Skipped push due to empty results"), 0)
  else (post url payload, 1)

/-! ## Date converter (lines 18–20)

`datetime.strptime(date_str, "%Y-%m-%d")` matches a four-digit year, a one- or
two-digit month and day (CPython's `%m`/`%d` patterns), requires the whole string
to be consumed, and validates the result as a proleptic-Gregorian calendar date
with year at least 1.  `.replace(tzinfo=timezone.utc).timestamp() * 1000` is then
exactly `days-since-1970-01-01 × 86 400 000` (exact in double precision for all
representable years).  A failed parse raises `ValueError`, modelled as `none`. -/

/-- The numeric value of an ASCII digit. -/
def digitVal (c : Char) : Option ℕ :=
  if '0' ≤ c ∧ c ≤ '9' then some (c.toNat - 48) else none

/-- Gregorian leap year. -/
def isLeapYear (y : ℤ) : Bool :=
  (y % 4 == 0 && y % 100 != 0) || (y % 400 == 0)

/-- Length of a month. -/
def daysInMonth (y m : ℤ) : ℤ :=
  if m = 2 then (if isLeapYear y then 29 else 28)
  else if m = 4 ∨ m = 6 ∨ m = 9 ∨ m = 11 then 30 else 31

/-- Read a one- or two-digit number in `1..hi`, greedily preferring two digits,
as CPython's `%m` / `%d` regular expressions do. -/
def read2or1 (hi : ℕ) : List Char → Option (ℕ × List Char)
  | a :: b :: rest =>
    match digitVal a, digitVal b with
    | some x, some y =>
      if 1 ≤ 10 * x + y ∧ 10 * x + y ≤ hi then some (10 * x + y, rest)
      else if 1 ≤ x then some (x, b :: rest)
      else none
    | some x, none => if 1 ≤ x then some (x, b :: rest) else none
    | none, _ => none
  | [a] =>
    match digitVal a with
    | some x => if 1 ≤ x then some (x, []) else none
    | none => none
  | [] => none

/-- `datetime.strptime(s, "%Y-%m-%d")`, returning the calendar date. -/
def parseDate (s : String) : Option (ℤ × ℤ × ℤ) :=
  match s.data with
  | a :: b :: c :: d :: rest =>
    match digitVal a, digitVal b, digitVal c, digitVal d with
    | some w, some x, some y, some z =>
      let year : ℕ := ((w * 10 + x) * 10 + y) * 10 + z
      (match rest with
       | '-' :: rest1 =>
         match read2or1 12 rest1 with
         | some (mo, rest2) =>
           (match rest2 with
            | '-' :: rest3 =>
              match read2or1 31 rest3 with
              | some (dy, rest4) =>
                if rest4 = [] ∧ 1 ≤ year ∧ (dy : ℤ) ≤ daysInMonth (year : ℤ) (mo : ℤ) then
                  some ((year : ℤ), (mo : ℤ), (dy : ℤ))
                else none
              | none => none
            | _ => none)
         | none => none
       | _ => none)
    | _, _, _, _ => none
  | _ => none

/-- Days from 1970-01-01 to the given proleptic-Gregorian date
(the standard civil-from-days algorithm, as `datetime.date.toordinal` computes). -/
def epochDays (y m d : ℤ) : ℤ :=
  let y1 := if m ≤ 2 then y - 1 else y
  let era := y1.fdiv 400
  let yoe := y1 - era * 400
  let mp := (m + 9) % 12
  let doy := (153 * mp + 2).fdiv 5 + d - 1
  let doe := yoe * 365 + yoe.fdiv 4 - yoe.fdiv 100 + doy
  era * 146097 + doe - 719468

/-- Milliseconds since the epoch of UTC midnight of a calendar date. -/
def utcMidnightMillis (y m d : ℤ) : ℤ := epochDays y m d * 86400000

/-- Lines 18–20: `to_unix_millis(date_str)`; `none` is the uncaught `ValueError`. -/
def to_unix_millis (s : String) : Option ℤ :=
  (parseDate s).map fun t => utcMidnightMillis t.1 t.2.1 t.2.2

/-! ## Filter-URL builder (lines 144–152)

`generate_filter_url` serializes the filter dict with `json.dumps` (default
`ensure_ascii=True`, separators `", "` / `": "`), percent-encodes it with
`urllib.parse.quote` (default `safe='/'`), and splices it into the dashboard URL.
Python strings are modelled as `List Char` (sequences of code points) here.

For the round-trip claim we also model the *decoding* direction — extracting the
`filters` query parameter, `urllib.parse.unquote`, and a JSON parse of the filter
object — which has no counterpart in the source and is built from the spec's words. -/

/-- Lowercase hex digit, as `json.dumps` emits in `\uXXXX` escapes. -/
def hexDigitLower (n : ℕ) : Char :=
  match n with
  | 0 => '0' | 1 => '1' | 2 => '2' | 3 => '3' | 4 => '4'
  | 5 => '5' | 6 => '6' | 7 => '7' | 8 => '8' | 9 => '9'
  | 10 => 'a' | 11 => 'b' | 12 => 'c' | 13 => 'd' | 14 => 'e' | 15 => 'f'
  | _ => '0'

/-- Uppercase hex digit, as `urllib.parse.quote` emits in `%XX` escapes. -/
def hexDigitUpper (n : ℕ) : Char :=
  match n with
  | 0 => '0' | 1 => '1' | 2 => '2' | 3 => '3' | 4 => '4'
  | 5 => '5' | 6 => '6' | 7 => '7' | 8 => '8' | 9 => '9'
  | 10 => 'A' | 11 => 'B' | 12 => 'C' | 13 => 'D' | 14 => 'E' | 15 => 'F'
  | _ => '0'

/-- The value of a hex digit in either case. -/
def hexVal (c : Char) : Option ℕ :=
  if '0' ≤ c ∧ c ≤ '9' then some (c.toNat - 48)
  else if 'a' ≤ c ∧ c ≤ 'f' then some (c.toNat - 87)
  else if 'A' ≤ c ∧ c ≤ 'F' then some (c.toNat - 55)
  else none

/-- Four lowercase hex digits of `n < 0x10000`. -/
def hex4 (n : ℕ) : List Char :=
  [hexDigitLower (n / 4096 % 16), hexDigitLower (n / 256 % 16),
   hexDigitLower (n / 16 % 16), hexDigitLower (n % 16)]

/-- `json.dumps` escaping of one character with `ensure_ascii=True`: characters
outside `0x20..0x7e` are escaped, astral characters as a surrogate pair. -/
def escChar (c : Char) : List Char :=
  if c = '"' then ['\\', '"']
  else if c = '\\' then ['\\', '\\']
  else if c = Char.ofNat 8 then ['\\', 'b']
  else if c = Char.ofNat 9 then ['\\', 't']
  else if c = Char.ofNat 10 then ['\\', 'n']
  else if c = Char.ofNat 12 then ['\\', 'f']
  else if c = Char.ofNat 13 then ['\\', 'r']
  else if 0x20 ≤ c.toNat ∧ c.toNat ≤ 0x7e then [c]
  else if c.toNat < 0x10000 then '\\' :: 'u' :: hex4 c.toNat
  else ('\\' :: 'u' :: hex4 (0xD800 + (c.toNat - 0x10000) / 0x400))
    ++ ('\\' :: 'u' :: hex4 (0xDC00 + (c.toNat - 0x10000) % 0x400))

/-- `json.dumps` escaping of a whole string body. -/
def escStr : List Char → List Char
  | [] => []
  | c :: cs => escChar c ++ escStr cs

/-- A JSON string literal: `"` body `"`. -/
def encStr (s : List Char) : List Char := '"' :: escStr s ++ ['"']

/-- The comma-space–separated JSON string literals of a list (the default
`json.dumps` item separator is `", "`). -/
def encStrList : List (List Char) → List Char
  | [] => []
  | [s] => encStr s
  | s :: rest => encStr s ++ ',' :: ' ' :: encStrList rest

/-- A JSON array of strings. -/
def encArray (ss : List (List Char)) : List Char := '[' :: encStrList ss ++ [']']

/-- `json.dumps(filter_obj)` for the filter dict built at lines 145–150, with keys
in insertion order and the default `": "` / `", "` separators. -/
def json_dumps_filter_obj (top_services : List (List Char)) : List Char :=
  '{' :: (encStr ("key".data) ++ ':' :: ' ' :: encStr ("parent_cloud_service".data))
    ++ ',' :: ' ' :: (encStr ("type".data) ++ ':' :: ' ' :: encStr ("col".data))
    ++ ',' :: ' ' :: (encStr ("operator".data) ++ ':' :: ' ' :: encStr ("oneOf".data))
    ++ ',' :: ' ' :: (encStr ("value".data) ++ ':' :: ' ' :: encArray top_services)
    ++ ['}']

/-- `urllib.parse.quote`'s unreserved characters, plus the default `safe='/'`. -/
def isSafeChar (c : Char) : Bool :=
  (('A' ≤ c) && (c ≤ 'Z')) || (('a' ≤ c) && (c ≤ 'z')) || (('0' ≤ c) && (c ≤ '9'))
  || (c == '_') || (c == '.') || (c == '-') || (c == '~') || (c == '/')

/-- The UTF-8 encoding of one code point, as a list of byte values. -/
def utf8Bytes (c : Char) : List ℕ :=
  let v := c.toNat
  if v < 0x80 then [v]
  else if v < 0x800 then [0xC0 + v / 64, 0x80 + v % 64]
  else if v < 0x10000 then [0xE0 + v / 4096, 0x80 + v / 64 % 64, 0x80 + v % 64]
  else [0xF0 + v / 262144, 0x80 + v / 4096 % 64, 0x80 + v / 64 % 64, 0x80 + v % 64]

/-- `%XX` with uppercase hex digits. -/
def pctByte (b : ℕ) : List Char := ['%', hexDigitUpper (b / 16), hexDigitUpper (b % 16)]

/-- `urllib.parse.quote` of one character: safe characters pass through, everything
else becomes the `%XX` escapes of its UTF-8 bytes. -/
def quoteChar (c : Char) : List Char :=
  if isSafeChar c then [c] else ((utf8Bytes c).map pctByte).flatten

/-- `urllib.parse.quote(s)` with the default `safe='/'`. -/
def pyQuote : List Char → List Char
  | [] => []
  | c :: cs => quoteChar c ++ pyQuote cs

/-- Lines 144–152: `generate_filter_url(account_id, top_services)`. -/
def generate_filter_url (account_id : List Char) (top_services : List (List Char)) :
    List Char :=
  ("https://app.finout.io/app/total-cost?accountId=".data) ++ account_id
    ++ ("&filters=".data) ++ pyQuote (json_dumps_filter_obj top_services)

/-- The `filters` query parameter of a URL: the suffix after the last occurrence of
`&filters=` (percent-encoding never emits `&` or `=`, so the parameter value is
exactly the remaining suffix). -/
def afterFilters : List Char → Option (List Char)
  | [] => none
  | c :: cs =>
    match afterFilters cs with
    | some r => some r
    | none =>
      if ("&filters=".data).isPrefixOf (c :: cs) then
        some (List.drop (("&filters=".data).length) (c :: cs))
      else none

/-- First phase of `urllib.parse.unquote`: cut the input into percent-decoded byte
values (`Sum.inl`) and pass-through characters (`Sum.inr`).  A `%` not followed by
two hex digits passes through, as in Python. -/
def unquoteTokens : List Char → List (ℕ ⊕ Char)
  | [] => []
  | c :: rest =>
    if c = '%' then
      match _h : rest with
      | a :: b :: rest2 =>
        (match hexVal a, hexVal b with
         | some x, some y => .inl (16 * x + y) :: unquoteTokens rest2
         | _, _ => .inr '%' :: unquoteTokens (a :: b :: rest2))
      | _ => .inr '%' :: unquoteTokens rest
    else .inr c :: unquoteTokens rest
termination_by xs => xs.length
decreasing_by all_goals (simp_wf <;> (try simp_all [List.length_cons]) <;> omega)

/-- The replacement character U+FFFD (Python decodes percent-encoded bytes with
`errors='replace'`). -/
def uFFFD : Char := Char.ofNat 0xFFFD

/-- Second phase of `urllib.parse.unquote`: decode the byte tokens, keeping
pass-through characters as-is.  Only the ASCII fragment is modelled faithfully: a
percent-decoded byte below `0x80` is that character, and a higher byte — the start
of a UTF-8 multi-byte sequence, which `quote` never produces from the pure-ASCII
`json.dumps(..., ensure_ascii=True)` output handled here — is modelled as the
replacement character U+FFFD (Python decodes with `errors='replace'`). -/
def utf8DecodeTokens : List (ℕ ⊕ Char) → List Char
  | [] => []
  | .inr c :: rest => c :: utf8DecodeTokens rest
  | .inl b :: rest =>
    if b < 0x80 then Char.ofNat b :: utf8DecodeTokens rest
    else uFFFD :: utf8DecodeTokens rest

/-- `urllib.parse.unquote(s)`. -/
def pyUnquote (s : List Char) : List Char := utf8DecodeTokens (unquoteTokens s)

/-- The characters a JSON simple escape denotes. -/
def escMap (e : Char) : Option Char :=
  if e = '"' then some '"'
  else if e = '\\' then some '\\'
  else if e = '/' then some '/'
  else if e = 'b' then some (Char.ofNat 8)
  else if e = 'f' then some (Char.ofNat 12)
  else if e = 'n' then some (Char.ofNat 10)
  else if e = 'r' then some (Char.ofNat 13)
  else if e = 't' then some (Char.ofNat 9)
  else none

/-- JSON string-literal body parser (the opening `"` already consumed): returns the
decoded characters and the input after the closing `"`.  `\uXXXX` escapes decode a
BMP code point or a surrogate pair; a lone surrogate (which Lean's `Char` cannot
represent, and which the encoder never emits) decodes to U+FFFD.  The `fuel`
argument makes the recursion structural; every step consumes at least one input
character, so `fuel ≥ length + 1` behaves as the untruncated parser. -/
def parseJStringBodyF : ℕ → List Char → Option (List Char × List Char)
  | 0, _ => none
  | fuel + 1, xs =>
    match xs with
    | [] => none
    | c :: rest =>
      if c = '"' then some ([], rest)
      else if c = '\\' then
        match rest with
        | [] => none
        | e :: rest1 =>
          if e = 'u' then
            match rest1 with
            | a :: b :: c2 :: d :: rest2 =>
              (match hexVal a, hexVal b, hexVal c2, hexVal d with
               | some w, some x, some y, some z =>
                 let v := ((w * 16 + x) * 16 + y) * 16 + z
                 if v < 0xD800 ∨ 0xDFFF < v then
                   (parseJStringBodyF fuel rest2).map fun p => (Char.ofNat v :: p.1, p.2)
                 else if v ≤ 0xDBFF then
                   match rest2 with
                   | b1 :: b2 :: e2 :: f2 :: g2 :: h2 :: rest3 =>
                     if b1 = '\\' ∧ b2 = 'u' then
                       (match hexVal e2, hexVal f2, hexVal g2, hexVal h2 with
                        | some w2, some x2, some y2, some z2 =>
                          let v2 := ((w2 * 16 + x2) * 16 + y2) * 16 + z2
                          if 0xDC00 ≤ v2 ∧ v2 ≤ 0xDFFF then
                            (parseJStringBodyF fuel rest3).map fun p =>
                              (Char.ofNat (0x10000 + (v - 0xD800) * 0x400 + (v2 - 0xDC00)) ::
                                p.1, p.2)
                          else
                            (parseJStringBodyF fuel rest2).map fun p => (uFFFD :: p.1, p.2)
                        | _, _, _, _ =>
                          (parseJStringBodyF fuel rest2).map fun p => (uFFFD :: p.1, p.2))
                     else (parseJStringBodyF fuel rest2).map fun p => (uFFFD :: p.1, p.2)
                   | _ => (parseJStringBodyF fuel rest2).map fun p => (uFFFD :: p.1, p.2)
                 else (parseJStringBodyF fuel rest2).map fun p => (uFFFD :: p.1, p.2)
               | _, _, _, _ => none)
            | _ => none
          else
            match escMap e with
            | some c3 => (parseJStringBodyF fuel rest1).map fun p => (c3 :: p.1, p.2)
            | none => none
      else (parseJStringBodyF fuel rest).map fun p => (c :: p.1, p.2)

/-- The JSON string-literal body parser, with enough fuel for its input. -/
def parseJStringBody (xs : List Char) : Option (List Char × List Char) :=
  parseJStringBodyF (xs.length + 1) xs

/-- A JSON string literal parser. -/
def parseJString : List Char → Option (List Char × List Char)
  | [] => none
  | c :: rest => if c = '"' then parseJStringBody rest else none

/-- Drop JSON whitespace. -/
def skipWs : List Char → List Char
  | [] => []
  | c :: rest =>
    if c = ' ' ∨ c = Char.ofNat 9 ∨ c = Char.ofNat 10 ∨ c = Char.ofNat 13 then skipWs rest
    else c :: rest

/-- Parse the comma-separated items of a nonempty JSON string array, up to and
including the closing `]`.  `fuel` bounds the number of items; every call consumes
at least one character, so `fuel ≥` the item count suffices. -/
def parseItems : ℕ → List Char → Option (List (List Char) × List Char)
  | 0, _ => none
  | fuel + 1, xs =>
    match parseJString (skipWs xs) with
    | none => none
    | some (s, rest) =>
      match skipWs rest with
      | ',' :: rest2 =>
        (match parseItems fuel rest2 with
         | some (ss, rest3) => some (s :: ss, rest3)
         | none => none)
      | ']' :: rest2 => some ([s], rest2)
      | _ => none

/-- Parse a JSON array of strings. -/
def parseStrArray (xs : List Char) : Option (List (List Char) × List Char) :=
  match skipWs xs with
  | '[' :: rest =>
    (match skipWs rest with
     | ']' :: rest2 => some ([], rest2)
     | ys => parseItems ys.length ys)
  | _ => none

/-- Parse a `"key": "string value"` member whose key must equal `key`, returning
the value and the remaining input. -/
def parseMemberStr (key : List Char) (s : List Char) : Option (List Char × List Char) :=
  match parseJString (skipWs s) with
  | some (k, r1) =>
    if k = key then
      match skipWs r1 with
      | ':' :: r2 => parseJString (skipWs r2)
      | _ => none
    else none
  | none => none

/-- Expect (after optional whitespace) the single character `c`, returning the
remaining input. -/
def expectChar (c : Char) (s : List Char) : Option (List Char) :=
  match skipWs s with
  | x :: r => if x = c then some r else none
  | [] => none

/-- Parse a complete JSON document of the filter object's shape —
`{"key": <string>, "type": <string>, "operator": <string>, "value": <string array>}`
— returning the `operator` and `value` fields. -/
def parseFilterObj (s : List Char) : Option (List Char × List (List Char)) := do
  let r0 ← expectChar '{' s
  let (_, r1) ← parseMemberStr ("key".data) r0
  let r2 ← expectChar ',' r1
  let (_, r3) ← parseMemberStr ("type".data) r2
  let r4 ← expectChar ',' r3
  let (op, r5) ← parseMemberStr ("operator".data) r4
  let r6 ← expectChar ',' r5
  let (k4, r7) ← parseJString (skipWs r6)
  if k4 = ("value".data) then
    let r8 ← expectChar ':' r7
    let (vals, r9) ← parseStrArray r8
    let r10 ← expectChar '}' r9
    if skipWs r10 = [] then some (op, vals) else none
  else none

/-! ## Structural lemmas about the aggregator's building blocks -/

theorem length_insertDesc (p : String × ℚ) (l : List (String × ℚ)) :
    (insertDesc p l).length = l.length + 1 := by
  induction l with
  | nil => rfl
  | cons q rest ih => by_cases h : q.2 ≤ p.2 <;> simp [insertDesc, h, ih]

theorem length_sortDesc (l : List (String × ℚ)) : (sortDesc l).length = l.length := by
  induction l with
  | nil => rfl
  | cons p rest ih => simp [sortDesc, length_insertDesc, ih]

theorem mem_insertDesc {q p : String × ℚ} {l : List (String × ℚ)} :
    q ∈ insertDesc p l ↔ q = p ∨ q ∈ l := by
  induction l with
  | nil => simp [insertDesc]
  | cons r rest ih =>
    by_cases h : r.2 ≤ p.2 <;> simp [insertDesc, h, ih]
    all_goals tauto

theorem mem_sortDesc {q : String × ℚ} {l : List (String × ℚ)} :
    q ∈ sortDesc l ↔ q ∈ l := by
  induction l with
  | nil => simp [sortDesc]
  | cons p rest ih => simp [sortDesc, mem_insertDesc, ih]

theorem pySlice_sublist {α : Type} (l : List α) (n : ℤ) : (pySlice l n).Sublist l := by
  unfold pySlice
  split <;> exact List.take_sublist _ _

theorem length_pySlice_le_length {α : Type} (l : List α) (n : ℤ) :
    (pySlice l n).length ≤ l.length :=
  (pySlice_sublist l n).length_le

theorem length_pySlice_le {α : Type} (l : List α) {n : ℤ} (h : 0 ≤ n) :
    ((pySlice l n).length : ℤ) ≤ n := by
  unfold pySlice
  rw [if_pos h]
  calc ((List.take n.toNat l).length : ℤ) ≤ (n.toNat : ℤ) := by
        exact_mod_cast List.length_take_le _ _
    _ = n := Int.toNat_of_nonneg h

theorem mem_keysOf_upsert {m : List (String × ℚ)} {k a : String} {v : ℚ} :
    a ∈ keysOf (upsert m k v) ↔ a ∈ keysOf m ∨ a = k := by
  induction m with
  | nil => simp [upsert, keysOf]
  | cons p rest ih =>
    obtain ⟨k', v'⟩ := p
    by_cases h : k' = k <;> simp [upsert, h, keysOf] at ih ⊢ <;> tauto

theorem nodup_keysOf_upsert {m : List (String × ℚ)} {k : String} {v : ℚ}
    (h : (keysOf m).Nodup) : (keysOf (upsert m k v)).Nodup := by
  induction m with
  | nil => simp [upsert, keysOf]
  | cons p rest ih =>
    obtain ⟨k', v'⟩ := p
    simp only [keysOf, List.map_cons, List.nodup_cons] at h
    by_cases hk : k' = k
    · simpa [upsert, hk, keysOf] using h
    · simp only [upsert, hk, if_false, keysOf, List.map_cons, List.nodup_cons]
      refine ⟨?_, ih h.2⟩
      intro hc
      rcases (mem_keysOf_upsert (m := rest)).mp hc with hm | he
      · exact h.1 hm
      · exact hk he

theorem aggStep_ok_cases {it : Bool} {m m' : List (String × ℚ)} {r : RecDict}
    (h : aggStep it m r = .ok m') :
    m' = m ∨ ∃ v, m' = upsert m (effName r) v := by
  unfold aggStep at h
  by_cases hname : r.name = some "Total"
  · rw [if_pos hname] at h
    cases it with
    | false => simp at h; exact Or.inl h.symm
    | true =>
      simp only [if_pos] at h
      cases hgd : getDataEntries r.data with
      | error e => rw [hgd] at h; cases h
      | ok es =>
        rw [hgd] at h
        dsimp only at h
        cases hsc : sumCosts es with
        | error e => rw [hsc] at h; cases h
        | ok s =>
          rw [hsc] at h
          refine Or.inr ⟨s, ?_⟩
          have : effName r = "Total" := by simp [effName, hname]
          rw [this]
          exact (Except.ok.inj h).symm
  · rw [if_neg hname] at h
    cases hgd : getDataEntries r.data with
    | error e => rw [hgd] at h; cases h
    | ok es =>
      rw [hgd] at h
      dsimp only at h
      cases hsc : sumCosts es with
      | error e => rw [hsc] at h; cases h
      | ok s =>
        rw [hsc] at h
        exact Or.inr ⟨s, by simp [effName]; exact (Except.ok.inj h).symm⟩

theorem aggStep_total_ok {m m' : List (String × ℚ)} {r : RecDict}
    (hname : r.name = some "Total") (h : aggStep true m r = .ok m') :
    ∃ v, m' = upsert m "Total" v := by
  have := aggStep_ok_cases h
  unfold aggStep at h
  rw [if_pos hname, if_pos rfl] at h
  cases hgd : getDataEntries r.data with
  | error e => rw [hgd] at h; cases h
  | ok es =>
    rw [hgd] at h
    dsimp only at h
    cases hsc : sumCosts es with
    | error e => rw [hsc] at h; cases h
    | ok s => rw [hsc] at h; exact ⟨s, (Except.ok.inj h).symm⟩

theorem aggregateRecs_ok_keys {it : Bool} {rs : List RecDict} :
    ∀ {m m' : List (String × ℚ)}, aggregateRecs it m rs = .ok m' →
      (∀ a, a ∈ keysOf m' → a ∈ keysOf m ∨ a ∈ rs.map effName) ∧
      ((keysOf m).Nodup → (keysOf m').Nodup) := by
  induction rs with
  | nil =>
    intro m m' h
    simp only [aggregateRecs] at h
    cases h
    exact ⟨fun a ha => Or.inl ha, id⟩
  | cons r rs ih =>
    intro m m' h
    simp only [aggregateRecs] at h
    cases hstep : aggStep it m r with
    | error e => rw [hstep] at h; cases h
    | ok m1 =>
      rw [hstep] at h
      obtain ⟨hsub, hnd⟩ := ih h
      rcases aggStep_ok_cases hstep with hm | ⟨v, hm⟩
      · subst hm
        exact ⟨fun a ha => (hsub a ha).imp id (List.mem_cons_of_mem _),
          fun hd => hnd hd⟩
      · subst hm
        constructor
        · intro a ha
          rcases hsub a ha with hk | hk
          · rcases mem_keysOf_upsert.mp hk with hk2 | hk2
            · exact Or.inl hk2
            · exact Or.inr (by simp [hk2])
          · exact Or.inr (List.mem_cons_of_mem _ hk)
        · intro hd
          exact hnd (nodup_keysOf_upsert hd)

theorem aggregateRecs_keys_mono {it : Bool} {rs : List RecDict} :
    ∀ {m m' : List (String × ℚ)}, aggregateRecs it m rs = .ok m' →
      ∀ a, a ∈ keysOf m → a ∈ keysOf m' := by
  induction rs with
  | nil =>
    intro m m' h a ha
    simp only [aggregateRecs] at h
    cases h
    exact ha
  | cons r rs ih =>
    intro m m' h a ha
    simp only [aggregateRecs] at h
    cases hstep : aggStep it m r with
    | error e => rw [hstep] at h; cases h
    | ok m1 =>
      rw [hstep] at h
      refine ih h a ?_
      rcases aggStep_ok_cases hstep with hm | ⟨v, hm⟩
      · exact hm ▸ ha
      · exact hm ▸ mem_keysOf_upsert.mpr (Or.inl ha)

theorem aggregateRecs_total_key {rs : List RecDict}
    (hr : ∃ r ∈ rs, r.name = some "Total") :
    ∀ {m m' : List (String × ℚ)}, aggregateRecs true m rs = .ok m' →
      "Total" ∈ keysOf m' := by
  induction rs with
  | nil => simp at hr
  | cons r rs ih =>
    intro m m' h
    simp only [aggregateRecs] at h
    cases hstep : aggStep true m r with
    | error e => rw [hstep] at h; cases h
    | ok m1 =>
      rw [hstep] at h
      rcases hr with ⟨r0, hr0mem, hr0⟩
      rcases List.mem_cons.mp hr0mem with rfl | hmem
      · obtain ⟨v, hm1⟩ := aggStep_total_ok hr0 hstep
        exact aggregateRecs_keys_mono h _ (hm1 ▸ mem_keysOf_upsert.mpr (Or.inr rfl))
      · exact ih ⟨r0, hmem, hr0⟩ h

theorem nodup_keysOf_aggregated {data : PyData} {it : Bool} {m : List (String × ℚ)}
    (h : aggregated data it = .ok m) : (keysOf m).Nodup := by
  unfold aggregated at h
  cases hrec : pyRecords data with
  | error e => rw [hrec] at h; cases h
  | ok rs =>
    rw [hrec] at h
    exact (aggregateRecs_ok_keys h).2 (by simp [keysOf])

theorem keysOf_cons (p : String × ℚ) (rest : List (String × ℚ)) :
    keysOf (p :: rest) = p.1 :: keysOf rest := rfl

theorem sumValues_cons (p : String × ℚ) (rest : List (String × ℚ)) :
    sumValues (p :: rest) = p.2 + sumValues rest := by
  simp [sumValues]

theorem nonTotal_cons (k : String) (v : ℚ) (rest : List (String × ℚ)) :
    nonTotal ((k, v) :: rest) =
      if k = "Total" then nonTotal rest else (k, v) :: nonTotal rest := by
  by_cases h : k = "Total" <;> simp [nonTotal, List.filter_cons, h]

theorem lookup_cons (a k : String) (v : ℚ) (rest : List (String × ℚ)) :
    List.lookup a ((k, v) :: rest) = if a = k then some v else List.lookup a rest := by
  by_cases h : a = k
  · subst h; simp [List.lookup]
  · have hb : (a == k) = false := beq_eq_false_iff_ne.mpr h
    simp [List.lookup, hb, h]

theorem lookup_isSome_of_mem_keysOf {m : List (String × ℚ)} {a : String}
    (h : a ∈ keysOf m) : (m.lookup a).isSome := by
  induction m with
  | nil => simp [keysOf] at h
  | cons p rest ih =>
    obtain ⟨k, v⟩ := p
    rw [keysOf_cons, List.mem_cons] at h
    rw [lookup_cons]
    by_cases hak : a = k
    · rw [if_pos hak]; rfl
    · rw [if_neg hak]
      exact ih (h.resolve_left hak)

theorem lookup_eq_none_of_not_mem {m : List (String × ℚ)} {a : String}
    (h : a ∉ keysOf m) : m.lookup a = none := by
  induction m with
  | nil => rfl
  | cons p rest ih =>
    obtain ⟨k, v⟩ := p
    rw [keysOf_cons, List.mem_cons] at h
    push_neg at h
    rw [lookup_cons, if_neg h.1]
    exact ih h.2

theorem nonTotal_eq_self {m : List (String × ℚ)} (h : "Total" ∉ keysOf m) :
    nonTotal m = m := by
  induction m with
  | nil => rfl
  | cons p rest ih =>
    obtain ⟨k, v⟩ := p
    rw [keysOf_cons, List.mem_cons] at h
    push_neg at h
    rw [nonTotal_cons, if_neg (fun hk => h.1 hk.symm), ih h.2]

theorem sumValues_split_total {m : List (String × ℚ)}
    (hnd : (keysOf m).Nodup) (hmem : "Total" ∈ keysOf m) :
    sumValues m = sumValues (nonTotal m) + ((m.lookup "Total").getD 0) := by
  induction m with
  | nil => simp [keysOf] at hmem
  | cons p rest ih =>
    obtain ⟨k, v⟩ := p
    rw [keysOf_cons] at hnd hmem
    rw [List.nodup_cons] at hnd
    rw [sumValues_cons, nonTotal_cons, lookup_cons]
    by_cases hk : k = "Total"
    · subst hk
      rw [if_pos rfl, if_pos rfl, nonTotal_eq_self hnd.1]
      simp
      ring
    · have hmem2 : "Total" ∈ keysOf rest := by
        rcases List.mem_cons.mp hmem with h1 | h1
        · exact absurd h1 fun hh => hk hh.symm
        · exact h1
      rw [if_neg hk, if_neg fun hh => hk hh.symm, sumValues_cons, ih hnd.2 hmem2]
      ring

theorem keysOf_nonTotal (m : List (String × ℚ)) :
    keysOf (nonTotal m) = (keysOf m).filter fun a => a ≠ "Total" := by
  induction m with
  | nil => rfl
  | cons p rest ih =>
    obtain ⟨k, v⟩ := p
    rw [nonTotal_cons, keysOf_cons]
    by_cases hk : k = "Total"
    · simp [hk, List.filter_cons, ih]
    · simp [hk, List.filter_cons, keysOf_cons, ih]

theorem nodup_length_le_dedup {l₁ l₂ : List String}
    (hnd : l₁.Nodup) (hsub : l₁ ⊆ l₂) : l₁.length ≤ l₂.dedup.length := by
  calc l₁.length = l₁.toFinset.card := (List.toFinset_card_of_nodup hnd).symm
    _ ≤ l₂.toFinset.card := by
        apply Finset.card_le_card
        intro a ha
        rw [List.mem_toFinset] at ha ⊢
        exact hsub ha
    _ = l₂.dedup.length := List.card_toFinset l₂

/-- Destructor for a successful run of the aggregator: either the zero-total guard
fired, or the ranked list and total entry have the shape of lines 101–119. -/
theorem summarize_ok_elim {data : PyData} {it : Bool} {tn : ℤ}
    {r : List RankedEntry} {t : Option TotalEntry}
    (h : summarize_top_costs data it tn = .ok (r, t)) :
    ∃ m, aggregated data it = .ok m ∧
      ((sumValues m = 0 ∧ r = [] ∧ t = none) ∨
       (sumValues m ≠ 0 ∧
        r = (pySlice (sortDesc (nonTotal m)) tn).map (fun p =>
          ({ service := p.1, amount_usd := pyRound 2 p.2
             percentage_of_total := pyRound 1 (p.2 / sumValues m * 100) } : RankedEntry)) ∧
        t = (if it then
               match m.lookup "Total" with
               | some v => some ⟨"Total", pyRound 2 v⟩
               | none => none
             else none))) := by
  unfold summarize_top_costs at h
  cases hagg : aggregated data it with
  | error e => rw [hagg] at h; cases h
  | ok m =>
    rw [hagg] at h
    dsimp only at h
    refine ⟨m, rfl, ?_⟩
    by_cases hz : ((m.map (·.2)).sum : ℚ) = 0
    · rw [if_pos hz] at h
      simp only [Except.ok.injEq, Prod.mk.injEq] at h
      exact Or.inl ⟨hz, h.1.symm, h.2.symm⟩
    · rw [if_neg hz] at h
      simp only [Except.ok.injEq, Prod.mk.injEq] at h
      exact Or.inr ⟨hz, h.1.symm, h.2.symm⟩

/-! ## The claims -/

/-- C1: on the input list holding exactly the two records
`{"name": "ComputeA", "data": [{"cost": 50}, {"cost": 30}]}` and
`{"name": "ComputeB", "data": [{"cost": 20}]}`, `summarize_top_costs` with
`include_total = false` and `top_n = 2` returns the ranked list
`[{service: "ComputeA", amount_usd: 80.0, percentage_of_total: 80.0},
{service: "ComputeB", amount_usd: 20.0, percentage_of_total: 20.0}]`
and a null total entry. -/
theorem summarize_end_to_end_example :
    summarize_top_costs (.list [recComputeA, recComputeB]) false 2 =
      .ok ([⟨"ComputeA", 80, 80⟩, ⟨"ComputeB", 20, 20⟩], none) := by
  simp [summarize_top_costs, aggregated, pyRecords, normalize, aggregateRecs, aggStep,
    getDataEntries, sumCosts, floatOfCost, upsert, sortDesc, insertDesc, pySlice,
    recComputeA, recComputeB, List.lookup]
  norm_num [pyRound, rndHalfEven]

/-- C2, counterexample to the claim as stated: with `top_n = -1` (a legal `int`,
e.g. `--top-n=-1` on the command line) the returned ranked list cannot have length
at most `top_n`, since a length is never negative: already on the empty input the
aggregator returns a list of length `0`, and `0 ≤ -1` is false. -/
theorem summarize_length_counterexample :
    summarize_top_costs (.list []) false (-1) = .ok ([], none) ∧
      ¬((([] : List RankedEntry).length : ℤ) ≤ -1) := by
  constructor
  · simp [summarize_top_costs, aggregated, pyRecords, normalize, aggregateRecs, sumValues]
  · decide

/-- C2 (amended): for every input and every integer `top_n`, a successfully
returned ranked list has length at most the number of distinct non-"Total" service
names present in the input; and whenever `top_n ≥ 0` its length is also at most
`top_n` (for negative `top_n`, Python's `[:top_n]` slice drops elements from the
end instead, so the `≤ top_n` bound necessarily fails). -/
theorem summarize_ranked_length_bounds (data : PyData) (it : Bool) (tn : ℤ)
    (r : List RankedEntry) (t : Option TotalEntry)
    (h : summarize_top_costs data it tn = .ok (r, t)) :
    r.length ≤ distinctNonTotalCount data ∧ (0 ≤ tn → (r.length : ℤ) ≤ tn) := by
  obtain ⟨m, hagg, hcase⟩ := summarize_ok_elim h
  rcases hcase with ⟨_, rfl, _⟩ | ⟨_, rfl, _⟩
  · simp
  · rw [List.length_map]
    constructor
    · have h1 : (pySlice (sortDesc (nonTotal m)) tn).length ≤ (nonTotal m).length := by
        calc (pySlice (sortDesc (nonTotal m)) tn).length
            ≤ (sortDesc (nonTotal m)).length := length_pySlice_le_length _ _
          _ = (nonTotal m).length := length_sortDesc _
      refine le_trans h1 ?_
      have h2 : (nonTotal m).length = (keysOf (nonTotal m)).length := by simp [keysOf]
      rw [h2, keysOf_nonTotal]
      apply nodup_length_le_dedup
      · exact (nodup_keysOf_aggregated hagg).filter _
      · intro a ha
        rw [List.mem_filter] at ha ⊢
        refine ⟨?_, ha.2⟩
        unfold aggregated at hagg
        cases hrec : pyRecords data with
        | error e => rw [hrec] at hagg; cases hagg
        | ok rs =>
          rw [hrec] at hagg
          rcases (aggregateRecs_ok_keys hagg).1 a ha.1 with h3 | h3
          · simp [keysOf] at h3
          · cases data with
            | list items =>
              have heq : normalize items = rs := by
                simpa [pyRecords] using hrec
              simpa [effNames, ← heq] using h3
            | dict ks =>
              have heq : ([] : List RecDict) = rs := by simpa [pyRecords] using hrec
              rw [← heq] at h3
              simp at h3
            | str cs =>
              have heq : ([] : List RecDict) = rs := by simpa [pyRecords] using hrec
              rw [← heq] at h3
              simp at h3
            | int n => simp [pyRecords] at hrec
    · intro htn
      exact_mod_cast length_pySlice_le (sortDesc (nonTotal m)) htn

/-- Witness for C2 (amended) at the concrete two-record input with `top_n = 2`. -/
theorem summarize_ranked_length_bounds_witness :
    ([⟨"ComputeA", 80, 80⟩, ⟨"ComputeB", 20, 20⟩] : List RankedEntry).length ≤
        distinctNonTotalCount (.list [recComputeA, recComputeB]) ∧
      (0 ≤ (2 : ℤ) →
        ((([⟨"ComputeA", 80, 80⟩, ⟨"ComputeB", 20, 20⟩] : List RankedEntry).length : ℤ) ≤ 2)) :=
  summarize_ranked_length_bounds (.list [recComputeA, recComputeB]) false 2 _ none
    (by simp [summarize_top_costs, aggregated, pyRecords, normalize, aggregateRecs, aggStep,
          getDataEntries, sumCosts, floatOfCost, upsert, sortDesc, insertDesc, pySlice,
          recComputeA, recComputeB, List.lookup]
        norm_num [pyRound, rndHalfEven])

/-- C3: whenever the aggregation completes and the per-name sums add up to exactly
zero (in particular when every record's costs sum to zero), the aggregator returns
the empty ranked list and a null total entry, for any `include_total` and `top_n`. -/
theorem summarize_zero_total_empty (items : List Item) (it : Bool) (tn : ℤ)
    (m : List (String × ℚ)) (hagg : aggregated (.list items) it = .ok m)
    (hzero : sumValues m = 0) :
    summarize_top_costs (.list items) it tn = .ok ([], none) := by
  have hz : ((m.map (·.2)).sum : ℚ) = 0 := hzero
  unfold summarize_top_costs
  rw [hagg]
  dsimp only
  rw [if_pos hz]

/-- Witness for C3: a single record whose one cost entry is `0`. -/
theorem summarize_zero_total_empty_witness :
    summarize_top_costs
        (.list [Item.native (.dict ⟨some "Idle", some (.list [.dict (some (.num 0))])⟩)])
        true 5 = .ok ([], none) :=
  summarize_zero_total_empty _ _ _ [("Idle", 0)]
    (by simp [aggregated, pyRecords, normalize, aggregateRecs, aggStep,
          getDataEntries, sumCosts, floatOfCost, upsert])
    (by norm_num [sumValues])

/-- C4: the payload builder passes the ranked list through unmodified, and the
`"total"` key is present exactly when a non-null total entry was supplied. -/
theorem build_payload_top_costs_total (top_list : List RankedEntry)
    (report_date : String) (total_entry : Option TotalEntry) :
    (build_payload top_list report_date total_entry).top_costs = top_list ∧
      ((build_payload top_list report_date total_entry).total.isSome ↔
        total_entry.isSome) :=
  ⟨rfl, Iff.rfl⟩

/-- C5: on a payload with an empty `top_costs`, the pusher makes no network call
(zero calls to the `post` oracle) and returns the sentinel status `0` with the
explanatory skip message, whatever the target URL. -/
theorem push_to_api_skips_empty (payload : Payload) (url : String)
    (post : String → Payload → ℤ × String) (h : payload.top_costs = []) :
    push_to_api payload url post = ((0, "Skipped push due to empty results"), 0) := by
  simp [push_to_api, h]

/-- Witness for C5 at a concrete empty payload and URL. -/
theorem push_to_api_skips_empty_witness :
    push_to_api (build_payload [] "2024-01-01" none) "https://example.com/push"
      (fun _ _ => (200, "ok")) = ((0, "Skipped push due to empty results"), 0) :=
  push_to_api_skips_empty _ _ _ rfl

/-- C7: a string element of the input list that fails to parse as JSON is skipped
with a warning and never aborts the summarization: the result is exactly the result
of summarizing the list with that element removed. -/
theorem summarize_skips_unparsable_string (pre post : List Item) (it : Bool) (tn : ℤ) :
    summarize_top_costs (.list (pre ++ Item.pystr none :: post)) it tn =
      summarize_top_costs (.list (pre ++ post)) it tn := by
  have hnorm : normalize (pre ++ Item.pystr none :: post) = normalize (pre ++ post) := by
    simp [normalize, List.filterMap_append, List.filterMap_cons]
  have hagg : aggregated (.list (pre ++ Item.pystr none :: post)) it =
      aggregated (.list (pre ++ post)) it := by
    simp only [aggregated, pyRecords, hnorm]
  unfold summarize_top_costs
  rw [hagg]

/-- C10, counterexample to the claim as stated: a non-list input need not come out
as `([], none)` — on the integer input `5` (a JSON number the fetcher can return
verbatim), `len(data)` at line 78 raises `TypeError`, so `summarize_top_costs`
propagates an error instead of returning. -/
theorem summarize_nonlist_counterexample :
    summarize_top_costs (.int 5) false 5 = .error () := rfl

/-- C10 (amended): for every non-list input that is sized and iterable — a mapping
(whose iteration yields its string keys) or a string (whose iteration yields
1-character strings) — the aggregator raises no error and returns
`([], none)`, because no element of such an input is a dict and so none is treated
as a cost record; but a non-sized non-list input such as the integer `5` raises
`TypeError` at the `len()` call. -/
theorem summarize_nonlist_sized_empty (data : PyData) (it : Bool) (tn : ℤ)
    (h : (∃ ks, data = PyData.dict ks) ∨ (∃ cs, data = PyData.str cs)) :
    summarize_top_costs data it tn = .ok ([], none) := by
  rcases h with ⟨ks, rfl⟩ | ⟨cs, rfl⟩ <;>
    simp [summarize_top_costs, aggregated, pyRecords, aggregateRecs, sumValues]

/-- Witness for C10 (amended) at a concrete dict input. -/
theorem summarize_nonlist_sized_empty_witness :
    summarize_top_costs (.dict ["request", "data"]) false 5 = .ok ([], none) :=
  summarize_nonlist_sized_empty _ false 5 (Or.inl ⟨_, rfl⟩)


/-- C8: for every date string accepted by the `%Y-%m-%d` parse, the date converter
returns exactly the UTC-midnight millisecond timestamp of the parsed calendar date;
that value is divisible by 1000 (no sub-second component); and the converter is
deterministic (two runs on the same input agree). -/
theorem to_unix_millis_utc_midnight (s : String) (y m d : ℤ)
    (h : parseDate s = some (y, m, d)) :
    to_unix_millis s = some (utcMidnightMillis y m d) ∧
      utcMidnightMillis y m d % 1000 = 0 ∧
      ∀ ms₁ ms₂, to_unix_millis s = some ms₁ → to_unix_millis s = some ms₂ →
        ms₁ = ms₂ := by
  refine ⟨by simp [to_unix_millis, h], ?_, ?_⟩
  · unfold utcMidnightMillis
    have hf : epochDays y m d * 86400000 = epochDays y m d * 86400 * 1000 := by ring
    rw [hf]
    exact Int.mul_emod_left _ 1000
  · intro ms₁ ms₂ h1 h2
    rw [h1] at h2
    exact Option.some.inj h2

/-- Witness for C8 at `"2024-01-02"` (epoch day 19724). -/
theorem to_unix_millis_utc_midnight_witness :
    to_unix_millis "2024-01-02" = some (utcMidnightMillis 2024 1 2) ∧
      utcMidnightMillis 2024 1 2 % 1000 = 0 ∧
      ∀ ms₁ ms₂, to_unix_millis "2024-01-02" = some ms₁ →
        to_unix_millis "2024-01-02" = some ms₂ → ms₁ = ms₂ :=
  to_unix_millis_utc_midnight "2024-01-02" 2024 1 2 (by decide)

/-- C9: with `include_total = true` and a record named exactly `"Total"` among the
parsed records, the denominator of every ranked entry's `percentage_of_total` is
the sum of the non-Total per-service costs *plus* the `"Total"` record's summed
cost (so percentages are taken against roughly double the services' sum when the
Total row itself equals that sum), and the very same enlarged sum is what the
zero-total guard tests. -/
theorem summarize_total_denominator (items : List Item) (tn : ℤ)
    (m : List (String × ℚ))
    (hagg : aggregated (.list items) true = .ok m)
    (hrec : ∃ r ∈ normalize items, r.name = some "Total") :
    summarize_top_costs (.list items) true tn =
      (let qT : ℚ := (m.lookup "Total").getD 0
       let T : ℚ := sumValues (nonTotal m) + qT
       if T = 0 then .ok ([], none)
       else
         .ok ((pySlice (sortDesc (nonTotal m)) tn).map fun p =>
             ({ service := p.1, amount_usd := pyRound 2 p.2
                percentage_of_total := pyRound 1 (p.2 / T * 100) } : RankedEntry),
           some ⟨"Total", pyRound 2 qT⟩)) := by
  have htot : "Total" ∈ keysOf m := by
    have hrun : aggregateRecs true [] (normalize items) = .ok m := by
      simpa [aggregated, pyRecords] using hagg
    exact aggregateRecs_total_key hrec hrun
  have hnd := nodup_keysOf_aggregated hagg
  have hsplit := sumValues_split_total hnd htot
  obtain ⟨qT, hlk⟩ := Option.isSome_iff_exists.mp (lookup_isSome_of_mem_keysOf htot)
  have hT : ((m.map (·.2)).sum : ℚ) = sumValues (nonTotal m) + (m.lookup "Total").getD 0 :=
    hsplit
  unfold summarize_top_costs
  rw [hagg]
  dsimp only
  rw [hT, hlk]
  simp [nonTotal]

/-- Witness for C9: records Total=100, A=60, B=40; the percentage basis is 200. -/
theorem summarize_total_denominator_witness :
    summarize_top_costs (.list [recTotalItem, recServiceA, recServiceB]) true 5 =
      (let qT : ℚ :=
        (([("Total", 100), ("A", 60), ("B", 40)] : List (String × ℚ)).lookup "Total").getD 0
       let T : ℚ :=
        sumValues (nonTotal ([("Total", 100), ("A", 60), ("B", 40)] : List (String × ℚ))) + qT
       if T = 0 then .ok ([], none)
       else
         .ok ((pySlice (sortDesc (nonTotal
               ([("Total", 100), ("A", 60), ("B", 40)] : List (String × ℚ)))) 5).map fun p =>
             ({ service := p.1, amount_usd := pyRound 2 p.2
                percentage_of_total := pyRound 1 (p.2 / T * 100) } : RankedEntry),
           some ⟨"Total", pyRound 2 qT⟩)) :=
  summarize_total_denominator [recTotalItem, recServiceA, recServiceB] 5
    [("Total", 100), ("A", 60), ("B", 40)]
    (by simp [aggregated, pyRecords, normalize, aggregateRecs, aggStep,
          getDataEntries, sumCosts, floatOfCost, upsert,
          recTotalItem, recServiceA, recServiceB])
    ⟨⟨some "Total", some (.list [.dict (some (.num 100))])⟩,
      by simp [normalize, recTotalItem, recServiceA, recServiceB], rfl⟩


/-! ## Lemmas for the filter-URL round trip (C6) -/

theorem hexVal_hexDigitUpper : ∀ n < 16, hexVal (hexDigitUpper n) = some n := by decide

theorem hexVal_hexDigitLower : ∀ n < 16, hexVal (hexDigitLower n) = some n := by decide

theorem hexDigitUpper_ne_amp (n : ℕ) : hexDigitUpper n ≠ '&' := by
  unfold hexDigitUpper
  split <;> decide

theorem hexDigitLower_ascii (n : ℕ) : (hexDigitLower n).toNat < 128 := by
  unfold hexDigitLower
  split <;> decide

theorem char_valid_ranges (c : Char) :
    c.toNat < 0xD800 ∨ (0xDFFF < c.toNat ∧ c.toNat < 0x110000) := by
  have h := c.valid
  rcases h with h | ⟨h1, h2⟩
  · left
    have : c.val.toNat < 55296 := h
    simpa [Char.toNat] using this
  · right
    have h1n : 57343 < c.val.toNat := h1
    have h2n : c.val.toNat < 1114112 := h2
    constructor <;> simpa [Char.toNat] using (by assumption : _)

theorem isPrefixOf_append_self (l t : List Char) : l.isPrefixOf (l ++ t) = true := by
  induction l with
  | nil => simp [List.isPrefixOf]
  | cons a as ih => simp [List.isPrefixOf, ih]

theorem afterFilters_cons (c : Char) (cs : List Char) :
    afterFilters (c :: cs) =
      match afterFilters cs with
      | some r => some r
      | none =>
        if ("&filters=".data).isPrefixOf (c :: cs) then
          some (List.drop (("&filters=".data).length) (c :: cs))
        else none := rfl

theorem afterFilters_eq_none {xs : List Char} (h : '&' ∉ xs) : afterFilters xs = none := by
  induction xs with
  | nil => rfl
  | cons c cs ih =>
    rw [List.mem_cons] at h
    push_neg at h
    rw [afterFilters_cons, ih h.2]
    show (if ("&filters=".data).isPrefixOf (c :: cs) then
      some (List.drop (("&filters=".data).length) (c :: cs)) else none) = none
    rw [if_neg]
    intro hpre
    rw [show ("&filters=".data) = '&' :: ("filters=".data) from rfl] at hpre
    have h2 : (('&' == c) && (("filters=".data).isPrefixOf cs)) = true := hpre
    rw [Bool.and_eq_true] at h2
    exact h.1 (eq_of_beq h2.1)

theorem afterFilters_append (a b : List Char) (hb : '&' ∉ b) :
    afterFilters (a ++ ("&filters=".data) ++ b) = some b := by
  induction a with
  | nil =>
    have htail : afterFilters (("filters=".data) ++ b) = none := by
      apply afterFilters_eq_none
      intro hmem
      rcases List.mem_append.mp hmem with h1 | h1
      · exact (by decide : '&' ∉ ("filters=".data)) h1
      · exact hb h1
    show afterFilters ('&' :: (("filters=".data) ++ b)) = some b
    rw [afterFilters_cons, htail]
    show (if ("&filters=".data).isPrefixOf ('&' :: (("filters=".data) ++ b)) then
      some (List.drop (("&filters=".data).length) ('&' :: (("filters=".data) ++ b)))
      else none) = some b
    rw [if_pos]
    · rw [show ('&' : Char) :: (("filters=".data) ++ b) = ("&filters=".data) ++ b from rfl,
        List.drop_left]
    · rw [show ('&' : Char) :: (("filters=".data) ++ b) = ("&filters=".data) ++ b from rfl]
      exact isPrefixOf_append_self _ _
  | cons c a ih =>
    show afterFilters (c :: (a ++ ("&filters=".data) ++ b)) = some b
    rw [afterFilters_cons, ih]

theorem pyQuote_no_amp (xs : List Char) : '&' ∉ pyQuote xs := by
  induction xs with
  | nil => simp [pyQuote]
  | cons c cs ih =>
    intro hmem
    rw [show pyQuote (c :: cs) = quoteChar c ++ pyQuote cs from rfl, List.mem_append] at hmem
    rcases hmem with hm | hm
    · unfold quoteChar at hm
      by_cases hs : isSafeChar c
      · rw [if_pos hs] at hm
        simp at hm
        rw [← hm] at hs
        exact absurd hs (by decide)
      · rw [if_neg hs, List.mem_flatten] at hm
        obtain ⟨l, hl, hml⟩ := hm
        rw [List.mem_map] at hl
        obtain ⟨byteV, _, rfl⟩ := hl
        rw [show pctByte byteV =
          ['%', hexDigitUpper (byteV / 16), hexDigitUpper (byteV % 16)] from rfl] at hml
        rcases List.mem_cons.mp hml with h1 | hml2
        · exact absurd h1 (by decide)
        rcases List.mem_cons.mp hml2 with h1 | hml3
        · exact (hexDigitUpper_ne_amp _) h1.symm
        rcases List.mem_cons.mp hml3 with h1 | hml4
        · exact (hexDigitUpper_ne_amp _) h1.symm
        · simp at hml4
    · exact ih hm

theorem skipWs_cons {c : Char} {t : List Char}
    (h : ¬(c = ' ' ∨ c = Char.ofNat 9 ∨ c = Char.ofNat 10 ∨ c = Char.ofNat 13)) :
    skipWs (c :: t) = c :: t := by
  rw [show skipWs (c :: t) =
    if c = ' ' ∨ c = Char.ofNat 9 ∨ c = Char.ofNat 10 ∨ c = Char.ofNat 13 then skipWs t
    else c :: t from rfl, if_neg h]

theorem unquoteTokens_cons_of_ne {c : Char} (t : List Char) (hne : c ≠ '%') :
    unquoteTokens (c :: t) = .inr c :: unquoteTokens t := by
  rw [unquoteTokens.eq_def]
  simp [hne]

theorem unquoteTokens_pct {a b : Char} {x y : ℕ} (t : List Char)
    (ha : hexVal a = some x) (hb : hexVal b = some y) :
    unquoteTokens ('%' :: a :: b :: t) = .inl (16 * x + y) :: unquoteTokens t := by
  rw [unquoteTokens.eq_def]
  simp [ha, hb]

theorem utf8DecodeTokens_nil : utf8DecodeTokens [] = [] := rfl

theorem utf8DecodeTokens_inr (c : Char) (t : List (ℕ ⊕ Char)) :
    utf8DecodeTokens (.inr c :: t) = c :: utf8DecodeTokens t := rfl

theorem utf8DecodeTokens_inl_ascii {b : ℕ} (t : List (ℕ ⊕ Char)) (h : b < 128) :
    utf8DecodeTokens (.inl b :: t) = Char.ofNat b :: utf8DecodeTokens t := by
  rw [show utf8DecodeTokens (.inl b :: t) =
    if b < 0x80 then Char.ofNat b :: utf8DecodeTokens t
    else uFFFD :: utf8DecodeTokens t from rfl, if_pos h]

theorem pyUnquote_pyQuote {xs : List Char} (h : ∀ c ∈ xs, c.toNat < 128) :
    pyUnquote (pyQuote xs) = xs := by
  induction xs with
  | nil =>
    show utf8DecodeTokens (unquoteTokens []) = []
    rw [show unquoteTokens [] = [] from by rw [unquoteTokens.eq_def], utf8DecodeTokens_nil]
  | cons c cs ih =>
    have hc : c.toNat < 128 := h c (List.mem_cons_self c cs)
    have hcs : ∀ a ∈ cs, a.toNat < 128 := fun a ha => h a (List.mem_cons_of_mem c ha)
    have hq : pyQuote (c :: cs) = quoteChar c ++ pyQuote cs := rfl
    unfold pyUnquote at ih ⊢
    by_cases hs : isSafeChar c
    · have hne : c ≠ '%' := by
        intro he
        rw [he] at hs
        exact absurd hs (by decide)
      rw [hq, show quoteChar c = [c] from by simp [quoteChar, hs],
        List.singleton_append, unquoteTokens_cons_of_ne _ hne,
        utf8DecodeTokens_inr, ih hcs]
    · have hbytes : utf8Bytes c = [c.toNat] := by
        simp [utf8Bytes, hc]
      have hq2 : quoteChar c =
          '%' :: hexDigitUpper (c.toNat / 16) :: hexDigitUpper (c.toNat % 16) :: [] := by
        simp [quoteChar, hs, hbytes, pctByte]
      have ha : hexVal (hexDigitUpper (c.toNat / 16)) = some (c.toNat / 16) :=
        hexVal_hexDigitUpper _ (by omega)
      have hb : hexVal (hexDigitUpper (c.toNat % 16)) = some (c.toNat % 16) :=
        hexVal_hexDigitUpper _ (by omega)
      have hbyte : 16 * (c.toNat / 16) + c.toNat % 16 = c.toNat := by omega
      rw [hq, hq2, show ('%' :: hexDigitUpper (c.toNat / 16) ::
          hexDigitUpper (c.toNat % 16) :: []) ++ pyQuote cs =
          '%' :: hexDigitUpper (c.toNat / 16) :: hexDigitUpper (c.toNat % 16) ::
            pyQuote cs from rfl,
        unquoteTokens_pct _ ha hb, hbyte,
        utf8DecodeTokens_inl_ascii _ hc, Char.ofNat_toNat, ih hcs]

theorem ascii_append {l1 l2 : List Char}
    (h1 : ∀ x ∈ l1, x.toNat < 128) (h2 : ∀ x ∈ l2, x.toNat < 128) :
    ∀ x ∈ l1 ++ l2, x.toNat < 128 := by
  intro x hx
  rcases List.mem_append.mp hx with h | h
  · exact h1 x h
  · exact h2 x h

theorem ascii_cons {c : Char} {l : List Char}
    (hc : c.toNat < 128) (h : ∀ x ∈ l, x.toNat < 128) :
    ∀ x ∈ c :: l, x.toNat < 128 := by
  intro x hx
  rcases List.mem_cons.mp hx with rfl | h2
  · exact hc
  · exact h x h2

theorem escChar_ascii (c : Char) : ∀ x ∈ escChar c, x.toNat < 128 := by
  intro x hx
  unfold escChar at hx
  by_cases h1 : c = '"'
  · rw [if_pos h1] at hx; simp at hx; rcases hx with rfl | rfl <;> decide
  rw [if_neg h1] at hx
  by_cases h2 : c = '\\'
  · rw [if_pos h2] at hx; simp at hx; rcases hx with rfl | rfl
    all_goals decide
  rw [if_neg h2] at hx
  by_cases h3 : c = Char.ofNat 8
  · rw [if_pos h3] at hx; simp at hx; rcases hx with rfl | rfl <;> decide
  rw [if_neg h3] at hx
  by_cases h4 : c = Char.ofNat 9
  · rw [if_pos h4] at hx; simp at hx; rcases hx with rfl | rfl <;> decide
  rw [if_neg h4] at hx
  by_cases h5 : c = Char.ofNat 10
  · rw [if_pos h5] at hx; simp at hx; rcases hx with rfl | rfl <;> decide
  rw [if_neg h5] at hx
  by_cases h6 : c = Char.ofNat 12
  · rw [if_pos h6] at hx; simp at hx; rcases hx with rfl | rfl <;> decide
  rw [if_neg h6] at hx
  by_cases h7 : c = Char.ofNat 13
  · rw [if_pos h7] at hx; simp at hx; rcases hx with rfl | rfl <;> decide
  rw [if_neg h7] at hx
  by_cases h8 : 0x20 ≤ c.toNat ∧ c.toNat ≤ 0x7e
  · rw [if_pos h8] at hx
    simp at hx
    subst hx
    omega
  rw [if_neg h8] at hx
  by_cases h9 : c.toNat < 0x10000
  · rw [if_pos h9] at hx
    simp [hex4] at hx
    rcases hx with h | h | h | h | h | h <;>
      (rw [h]; first | exact hexDigitLower_ascii _ | decide)
  · rw [if_neg h9] at hx
    simp [hex4] at hx
    rcases hx with h | h | h | h | h | h | h | h | h | h | h | h <;>
      (rw [h]; first | exact hexDigitLower_ascii _ | decide)

theorem escStr_ascii (s : List Char) : ∀ x ∈ escStr s, x.toNat < 128 := by
  induction s with
  | nil => simp [escStr]
  | cons c cs ih =>
    rw [show escStr (c :: cs) = escChar c ++ escStr cs from rfl]
    exact ascii_append (escChar_ascii c) ih

theorem encStr_ascii (v : List Char) : ∀ x ∈ encStr v, x.toNat < 128 := by
  unfold encStr
  exact ascii_cons (by decide) (ascii_append (escStr_ascii v) (by decide))

theorem encStrList_ascii (ss : List (List Char)) : ∀ x ∈ encStrList ss, x.toNat < 128 := by
  induction ss with
  | nil => simp [encStrList]
  | cons v rest ih =>
    cases rest with
    | nil => exact encStr_ascii v
    | cons v2 rest2 =>
      rw [show encStrList (v :: v2 :: rest2) =
        encStr v ++ ',' :: ' ' :: encStrList (v2 :: rest2) from rfl]
      exact ascii_append (encStr_ascii v) (ascii_cons (by decide) (ascii_cons (by decide) ih))

theorem encArray_ascii (ss : List (List Char)) : ∀ x ∈ encArray ss, x.toNat < 128 := by
  unfold encArray
  exact ascii_cons (by decide) (ascii_append (encStrList_ascii ss) (by decide))

theorem dumps_ascii (ss : List (List Char)) :
    ∀ x ∈ json_dumps_filter_obj ss, x.toNat < 128 := by
  unfold json_dumps_filter_obj
  simp only [List.forall_mem_append, List.forall_mem_cons, List.forall_mem_nil]
  repeat' apply And.intro
  all_goals
    first
    | decide
    | exact encStr_ascii _
    | exact encArray_ascii _


theorem escChar_length_pos (c : Char) : 1 ≤ (escChar c).length := by
  unfold escChar
  repeat' split
  all_goals
    (simp only [hex4, List.length_cons, List.length_append, List.length_nil]; omega)

theorem escStr_length_ge (s : List Char) : s.length ≤ (escStr s).length := by
  induction s with
  | nil => simp [escStr]
  | cons c cs ih =>
    rw [show escStr (c :: cs) = escChar c ++ escStr cs from rfl, List.length_append,
      List.length_cons]
    have := escChar_length_pos c
    omega

theorem pjsbF_u_bmp (c : Char) {f : ℕ} {tail cs rest : List Char}
    (h9 : c.toNat < 0x10000)
    (hk : parseJStringBodyF f tail = some (cs, rest)) :
    parseJStringBodyF (f + 1) (('\\' :: 'u' :: hex4 c.toNat) ++ tail) =
      some (c :: cs, rest) := by
  have e1 : hexVal (hexDigitLower (c.toNat / 4096 % 16)) =
      some (c.toNat / 4096 % 16) := hexVal_hexDigitLower _ (by omega)
  have e2 : hexVal (hexDigitLower (c.toNat / 256 % 16)) =
      some (c.toNat / 256 % 16) := hexVal_hexDigitLower _ (by omega)
  have e3 : hexVal (hexDigitLower (c.toNat / 16 % 16)) =
      some (c.toNat / 16 % 16) := hexVal_hexDigitLower _ (by omega)
  have e4 : hexVal (hexDigitLower (c.toNat % 16)) =
      some (c.toNat % 16) := hexVal_hexDigitLower _ (by omega)
  have hrec : ((c.toNat / 4096 % 16 * 16 + c.toNat / 256 % 16) * 16 +
      c.toNat / 16 % 16) * 16 + c.toNat % 16 = c.toNat := by omega
  have hcond : c.toNat < 0xD800 ∨ 0xDFFF < c.toNat :=
    (char_valid_ranges c).imp id And.left
  simp [hex4, parseJStringBodyF, e1, e2, e3, e4, hrec, hcond, Char.ofNat_toNat, hk]

theorem pjsbF_u_pair {f : ℕ} {tail cs rest : List Char} (hi lo cval : ℕ)
    (hhi : 0xD800 ≤ hi ∧ hi ≤ 0xDBFF) (hlo : 0xDC00 ≤ lo ∧ lo ≤ 0xDFFF)
    (hcv : 0x10000 + (hi - 0xD800) * 0x400 + (lo - 0xDC00) = cval)
    (hk : parseJStringBodyF f tail = some (cs, rest)) :
    parseJStringBodyF (f + 1)
      ((('\\' :: 'u' :: hex4 hi) ++ ('\\' :: 'u' :: hex4 lo)) ++ tail) =
      some (Char.ofNat cval :: cs, rest) := by
  have e1 : hexVal (hexDigitLower (hi / 4096 % 16)) = some (hi / 4096 % 16) :=
    hexVal_hexDigitLower _ (by omega)
  have e2 : hexVal (hexDigitLower (hi / 256 % 16)) = some (hi / 256 % 16) :=
    hexVal_hexDigitLower _ (by omega)
  have e3 : hexVal (hexDigitLower (hi / 16 % 16)) = some (hi / 16 % 16) :=
    hexVal_hexDigitLower _ (by omega)
  have e4 : hexVal (hexDigitLower (hi % 16)) = some (hi % 16) :=
    hexVal_hexDigitLower _ (by omega)
  have f1 : hexVal (hexDigitLower (lo / 4096 % 16)) = some (lo / 4096 % 16) :=
    hexVal_hexDigitLower _ (by omega)
  have f2 : hexVal (hexDigitLower (lo / 256 % 16)) = some (lo / 256 % 16) :=
    hexVal_hexDigitLower _ (by omega)
  have f3 : hexVal (hexDigitLower (lo / 16 % 16)) = some (lo / 16 % 16) :=
    hexVal_hexDigitLower _ (by omega)
  have f4 : hexVal (hexDigitLower (lo % 16)) = some (lo % 16) :=
    hexVal_hexDigitLower _ (by omega)
  have hrecHi : ((hi / 4096 % 16 * 16 + hi / 256 % 16) * 16 + hi / 16 % 16) * 16 +
      hi % 16 = hi := by omega
  have hrecLo : ((lo / 4096 % 16 * 16 + lo / 256 % 16) * 16 + lo / 16 % 16) * 16 +
      lo % 16 = lo := by omega
  have hnotbmp : ¬(hi < 0xD800 ∨ 0xDFFF < hi) := by omega
  have hle : hi ≤ 0xDBFF := hhi.2
  simp [hex4, parseJStringBodyF, e1, e2, e3, e4, f1, f2, f3, f4, hrecHi, hrecLo,
    hnotbmp, hle, hlo, hk, hcv]

theorem pjsbF_u_surr (c : Char) {f : ℕ} {tail cs rest : List Char}
    (h9 : ¬ c.toNat < 0x10000)
    (hk : parseJStringBodyF f tail = some (cs, rest)) :
    parseJStringBodyF (f + 1)
      ((('\\' :: 'u' :: hex4 (0xD800 + (c.toNat - 0x10000) / 0x400)) ++
        ('\\' :: 'u' :: hex4 (0xDC00 + (c.toNat - 0x10000) % 0x400))) ++ tail) =
      some (c :: cs, rest) := by
  have hmax : c.toNat < 0x110000 := by
    rcases char_valid_ranges c with h | h
    · omega
    · exact h.2
  have h := pjsbF_u_pair (0xD800 + (c.toNat - 0x10000) / 0x400)
    (0xDC00 + (c.toNat - 0x10000) % 0x400) c.toNat
    (by constructor <;> omega) (by constructor <;> omega) (by omega) hk
  rw [h, Char.ofNat_toNat]

theorem pjsbF_escChar (c : Char) {f : ℕ} {tail cs rest : List Char}
    (hk : parseJStringBodyF f tail = some (cs, rest)) :
    parseJStringBodyF (f + 1) (escChar c ++ tail) = some (c :: cs, rest) := by
  unfold escChar
  by_cases h1 : c = '"'
  · subst h1; rw [if_pos rfl]; simp [parseJStringBodyF, escMap, hk]
  rw [if_neg h1]
  by_cases h2 : c = '\\'
  · subst h2; rw [if_pos rfl]; simp [parseJStringBodyF, escMap, hk]
  rw [if_neg h2]
  by_cases h3 : c = Char.ofNat 8
  · subst h3; rw [if_pos rfl]; simp [parseJStringBodyF, escMap, hk]
  rw [if_neg h3]
  by_cases h4 : c = Char.ofNat 9
  · subst h4; rw [if_pos rfl]; simp [parseJStringBodyF, escMap, hk]
  rw [if_neg h4]
  by_cases h5 : c = Char.ofNat 10
  · subst h5; rw [if_pos rfl]; simp [parseJStringBodyF, escMap, hk]
  rw [if_neg h5]
  by_cases h6 : c = Char.ofNat 12
  · subst h6; rw [if_pos rfl]; simp [parseJStringBodyF, escMap, hk]
  rw [if_neg h6]
  by_cases h7 : c = Char.ofNat 13
  · subst h7; rw [if_pos rfl]; simp [parseJStringBodyF, escMap, hk]
  rw [if_neg h7]
  by_cases h8 : 0x20 ≤ c.toNat ∧ c.toNat ≤ 0x7e
  · rw [if_pos h8]
    simp [parseJStringBodyF, h1, h2, hk]
  rw [if_neg h8]
  by_cases h9 : c.toNat < 0x10000
  · rw [if_pos h9]
    exact pjsbF_u_bmp c h9 hk
  · rw [if_neg h9]
    exact pjsbF_u_surr c h9 hk

theorem pjsbF_escStr (s : List Char) : ∀ (fuel : ℕ) (rest : List Char),
    s.length + 1 ≤ fuel →
    parseJStringBodyF fuel (escStr s ++ '"' :: rest) = some (s, rest) := by
  induction s with
  | nil =>
    intro fuel rest hf
    match fuel, hf with
    | f + 1, _ => simp [escStr, parseJStringBodyF]
  | cons c cs ih =>
    intro fuel rest hf
    match fuel, hf with
    | f + 1, hf =>
      have hftail : cs.length + 1 ≤ f := by
        rw [List.length_cons] at hf
        omega
      rw [show escStr (c :: cs) = escChar c ++ escStr cs from rfl, List.append_assoc]
      exact pjsbF_escChar c (ih f rest hftail)

theorem parseJStringBody_escStr (s rest : List Char) :
    parseJStringBody (escStr s ++ '"' :: rest) = some (s, rest) := by
  unfold parseJStringBody
  apply pjsbF_escStr
  rw [List.length_append, List.length_cons]
  have := escStr_length_ge s
  omega

theorem parseJString_enc (s rest : List Char) :
    parseJString ('"' :: (escStr s ++ '"' :: rest)) = some (s, rest) := by
  rw [show parseJString ('"' :: (escStr s ++ '"' :: rest)) =
    parseJStringBody (escStr s ++ '"' :: rest) from by simp [parseJString]]
  exact parseJStringBody_escStr s rest


theorem skipWs_space (t : List Char) : skipWs (' ' :: t) = skipWs t := by
  rw [show skipWs (' ' :: t) =
    if (' ' : Char) = ' ' ∨ (' ' : Char) = Char.ofNat 9 ∨ (' ' : Char) = Char.ofNat 10 ∨
      (' ' : Char) = Char.ofNat 13 then skipWs t else ' ' :: t from rfl,
    if_pos (Or.inl rfl)]

theorem skipWs_quote (t : List Char) : skipWs ('"' :: t) = '"' :: t :=
  skipWs_cons (by decide)

theorem skipWs_lbrack (t : List Char) : skipWs ('[' :: t) = '[' :: t :=
  skipWs_cons (by decide)

theorem skipWs_rbrack (t : List Char) : skipWs (']' :: t) = ']' :: t :=
  skipWs_cons (by decide)

theorem skipWs_comma (t : List Char) : skipWs (',' :: t) = ',' :: t :=
  skipWs_cons (by decide)

theorem skipWs_colon (t : List Char) : skipWs (':' :: t) = ':' :: t :=
  skipWs_cons (by decide)

theorem skipWs_rbrace (t : List Char) : skipWs ('}' :: t) = '}' :: t :=
  skipWs_cons (by decide)

theorem encStrList_length_ge (ss : List (List Char)) :
    ss.length ≤ (encStrList ss).length := by
  induction ss with
  | nil => simp [encStrList]
  | cons v rest ih =>
    cases rest with
    | nil => simp [encStrList, encStr]
    | cons v2 rest2 =>
      rw [show encStrList (v :: v2 :: rest2) =
        encStr v ++ ',' :: ' ' :: encStrList (v2 :: rest2) from rfl]
      rw [List.length_append, List.length_cons]
      simp only [encStr, List.length_cons, List.length_append] at *
      omega

theorem parseItems_space (fuel : ℕ) (xs : List Char) :
    parseItems fuel (' ' :: xs) = parseItems fuel xs := by
  cases fuel with
  | zero => rfl
  | succ f => simp only [parseItems, skipWs_space]

theorem parseItems_encStrList (svcs : List (List Char)) (hne : svcs ≠ []) :
    ∀ fuel, svcs.length ≤ fuel → ∀ rest,
      parseItems fuel (encStrList svcs ++ ']' :: rest) = some (svcs, rest) := by
  induction svcs with
  | nil => exact absurd rfl hne
  | cons s ss ih =>
    intro fuel hfuel rest
    cases fuel with
    | zero => simp at hfuel
    | succ f =>
      cases ss with
      | nil =>
        have hshape : encStrList [s] ++ ']' :: rest =
            '"' :: (escStr s ++ '"' :: (']' :: rest)) := by
          simp [encStrList, encStr]
        rw [hshape]
        simp only [parseItems]
        rw [skipWs_quote, parseJString_enc]
        dsimp only
        rw [skipWs_rbrack]
        rfl
      | cons s2 ss2 =>
        have hshape : encStrList (s :: s2 :: ss2) ++ ']' :: rest =
            '"' :: (escStr s ++ '"' :: (',' :: ' ' ::
              (encStrList (s2 :: ss2) ++ ']' :: rest))) := by
          simp [show encStrList (s :: s2 :: ss2) =
            encStr s ++ ',' :: ' ' :: encStrList (s2 :: ss2) from rfl, encStr]
        rw [hshape]
        simp only [parseItems]
        rw [skipWs_quote, parseJString_enc]
        dsimp only
        rw [skipWs_comma]
        show (match parseItems f (' ' :: (encStrList (s2 :: ss2) ++ ']' :: rest)) with
          | some (ss, rest3) => some (s :: ss, rest3)
          | none => none) = some (s :: s2 :: ss2, rest)
        rw [parseItems_space,
          ih (by simp) f (by rw [List.length_cons] at hfuel; omega) rest]

theorem parseStrArray_space (xs : List Char) :
    parseStrArray (' ' :: xs) = parseStrArray xs := by
  simp only [parseStrArray, skipWs_space]

theorem parseStrArray_encArray (svcs : List (List Char)) (rest : List Char) :
    parseStrArray (encArray svcs ++ rest) = some (svcs, rest) := by
  have hshape : encArray svcs ++ rest = '[' :: (encStrList svcs ++ ']' :: rest) := by
    simp [encArray]
  rw [hshape]
  simp only [parseStrArray]
  rw [skipWs_lbrack]
  show (match skipWs (encStrList svcs ++ ']' :: rest) with
    | ']' :: rest2 => some ([], rest2)
    | ys => parseItems ys.length ys) = some (svcs, rest)
  cases svcs with
  | nil =>
    rw [show encStrList [] ++ ']' :: rest = ']' :: rest from rfl, skipWs_rbrack]
    rfl
  | cons s ss =>
    have hhead : ∃ t, encStrList (s :: ss) ++ ']' :: rest = '"' :: t := by
      cases ss with
      | nil => exact ⟨escStr s ++ '"' :: (']' :: rest), by simp [encStrList, encStr]⟩
      | cons s2 ss2 =>
        exact ⟨escStr s ++ '"' :: (',' :: ' ' :: (encStrList (s2 :: ss2) ++ ']' :: rest)), by
          simp [show encStrList (s :: s2 :: ss2) =
            encStr s ++ ',' :: ' ' :: encStrList (s2 :: ss2) from rfl, encStr]⟩
    obtain ⟨t, ht⟩ := hhead
    rw [ht, skipWs_quote]
    show parseItems ('"' :: t).length ('"' :: t) = some (s :: ss, rest)
    rw [← ht]
    exact parseItems_encStrList (s :: ss) (by simp) _ (by
      rw [List.length_append]
      have := encStrList_length_ge (s :: ss)
      omega) rest

theorem parseMemberStr_space (key : List Char) (xs : List Char) :
    parseMemberStr key (' ' :: xs) = parseMemberStr key xs := by
  simp only [parseMemberStr, skipWs_space]

theorem parseMemberStr_enc (key v rest : List Char) :
    parseMemberStr key
      ('"' :: (escStr key ++ '"' :: (':' :: ' ' :: ('"' :: (escStr v ++ '"' :: rest))))) =
      some (v, rest) := by
  simp only [parseMemberStr]
  rw [skipWs_quote, parseJString_enc]
  dsimp only
  rw [if_pos rfl, skipWs_colon]
  show parseJString (skipWs (' ' :: ('"' :: (escStr v ++ '"' :: rest)))) = some (v, rest)
  rw [skipWs_space, skipWs_quote, parseJString_enc]

theorem expectChar_cons (c : Char) (t : List Char)
    (hws : ¬(c = ' ' ∨ c = Char.ofNat 9 ∨ c = Char.ofNat 10 ∨ c = Char.ofNat 13)) :
    expectChar c (c :: t) = some t := by
  simp only [expectChar]
  rw [skipWs_cons hws]
  show (if c = c then some t else none) = some t
  rw [if_pos rfl]

theorem expectChar_wsp (c : Char) (t : List Char) :
    expectChar c (' ' :: t) = expectChar c t := by
  simp only [expectChar, skipWs_space]

theorem parseMemberStr_wsp_enc (key v rest : List Char) :
    parseMemberStr key
      (' ' :: ('"' :: (escStr key ++ '"' :: (':' :: ' ' :: ('"' :: (escStr v ++ '"' :: rest)))))) =
      some (v, rest) := by
  rw [parseMemberStr_space, parseMemberStr_enc]

theorem parseFilterObj_dumps (svcs : List (List Char)) :
    parseFilterObj (json_dumps_filter_obj svcs) = some (("oneOf".data), svcs) := by
  have hshape : json_dumps_filter_obj svcs =
      '{' :: ('"' :: (escStr ("key".data) ++ '"' :: (':' :: ' ' :: ('"' :: (escStr ("parent_cloud_service".data) ++ '"' :: (',' :: ' ' :: ('"' :: (escStr ("type".data) ++ '"' :: (':' :: ' ' :: ('"' :: (escStr ("col".data) ++ '"' :: (',' :: ' ' :: ('"' :: (escStr ("operator".data) ++ '"' :: (':' :: ' ' :: ('"' :: (escStr ("oneOf".data) ++ '"' :: (',' :: ' ' :: ('"' :: (escStr ("value".data) ++ '"' :: (':' :: ' ' :: (encArray svcs ++ ['}'])))))))))))))))))))))) := by
    simp [json_dumps_filter_obj, encStr]
  rw [hshape]
  simp only [parseFilterObj]
  rw [expectChar_cons _ _ (by decide)]
  simp only [Option.bind_eq_bind, Option.some_bind]
  rw [parseMemberStr_enc]
  simp only [Option.bind_eq_bind, Option.some_bind]
  rw [expectChar_cons _ _ (by decide)]
  simp only [Option.bind_eq_bind, Option.some_bind]
  rw [parseMemberStr_wsp_enc]
  simp only [Option.bind_eq_bind, Option.some_bind]
  rw [expectChar_cons _ _ (by decide)]
  simp only [Option.bind_eq_bind, Option.some_bind]
  rw [parseMemberStr_wsp_enc]
  simp only [Option.bind_eq_bind, Option.some_bind]
  rw [expectChar_cons _ _ (by decide)]
  simp only [Option.bind_eq_bind, Option.some_bind]
  rw [skipWs_space, skipWs_quote, parseJString_enc]
  simp only [Option.bind_eq_bind, Option.some_bind]
  rw [if_pos trivial]
  rw [expectChar_cons _ _ (by decide)]
  simp only [Option.bind_eq_bind, Option.some_bind]
  rw [parseStrArray_space, parseStrArray_encArray]
  simp only [Option.bind_eq_bind, Option.some_bind]
  rw [expectChar_cons _ _ (by decide)]
  simp only [Option.bind_eq_bind, Option.some_bind]
  rw [if_pos (show skipWs [] = [] from rfl)]

/-- C6: For every account id and every list of service-name strings, URL-decoding the
`filters` query parameter of the URL produced by `generate_filter_url` and parsing it
as JSON yields an object whose `operator` field is `"oneOf"` and whose `value` field
is exactly the input service-name list, in the same order. -/
theorem generate_filter_url_roundtrip (account_id : List Char)
    (services : List (List Char)) :
    ∃ enc, afterFilters (generate_filter_url account_id services) = some enc ∧
      parseFilterObj (pyUnquote enc) = some (("oneOf".data), services) := by
  refine ⟨pyQuote (json_dumps_filter_obj services), ?_, ?_⟩
  · rw [show generate_filter_url account_id services =
      ((("https://app.finout.io/app/total-cost?accountId=".data) ++ account_id)
        ++ ("&filters=".data)) ++ pyQuote (json_dumps_filter_obj services) from rfl]
    exact afterFilters_append _ _ (pyQuote_no_amp _)
  · rw [pyUnquote_pyQuote (dumps_ascii services), parseFilterObj_dumps]

end Finout
